import Mathlib

/-!
Shallow embedding of `src/src/lib.rs` (sonneko/json-parser): a recursive-descent
JSON-like parser over a character stream.  The Rust code consumes a
`Peekable<impl Iterator<Item = char>>`; we model the remaining input as a
`List Char` and each production as a function returning the parsed node
together with the remaining input, or an error.  Rust `panic!`/failed
`assert!` calls are modelled as `Except.error` with the error category the
spec assigns to that panic site.  The mutual recursion of `value`/`object`/
`array` is made total with a fuel parameter; `Perr.OutOfFuel` marks fuel
exhaustion and is proved unreachable for fuel `2 * input length + 1`.
-/

/-- Error categories of the parser, one per panic/assert site in the source
(§7 of the spec), plus `OutOfFuel` as the artificial fuel-exhaustion marker
of the embedding. -/
inductive Perr where
  | UnexpectedCharacter
  | UnexpectedEndOfInput
  | MalformedNumber
  | MalformedLiteral
  | ExpectedColon
  | ExpectedComma
  | UnexpectedToken
  | OutOfFuel
deriving DecidableEq

/-- Embeds `enum Node` from the source.  `FloatLiteral`: the source stores an
`f32` obtained from `str::parse::<f32>`; we represent the converted value
exactly as the decimal `mant / 10 ^ scale` read from the token (IEEE-754
rounding of that exact decimal is not modelled; no claim depends on it).
`Object`: the source stores a `HashMap<String, Node>`; we represent it as an
association list maintained with the key-replace insertion semantics of
`HashMap::insert` (see `insertReplace`). -/
inductive Node where
  | IntLiteral (n : Int)
  | FloatLiteral (mant : Int) (scale : Nat)
  | StringLiteral (s : String)
  | NullLiteral
  | BoolLiteral (b : Bool)
  | Object (entries : List (String × Node))
  | Array (elems : List Node)

/-- Embeds `fn skip_space`: `while let Some(' ' | '\n' | '\t') = peek { next }`. -/
def skip_space : List Char → List Char
  | [] => []
  | c :: rest =>
    if c == ' ' || c == '\n' || c == '\t' then skip_space rest else c :: rest

/-- Embeds the loop of `fn string`: consume characters until a `"` (which is
consumed but not kept) or end of input; returns the collected characters and
the remaining input. -/
def strLoop : List Char → List Char × List Char
  | [] => ([], [])
  | c :: rest =>
    if c == '"' then ([], rest)
    else ((c :: (strLoop rest).1), (strLoop rest).2)

/-- Embeds `fn string`: `self.json.next()` discards one character (the opening
quote at the call sites), then the loop runs. -/
def string (s : List Char) : List Char × List Char := strLoop (s.drop 1)

/-- Characters accepted by the loop of `fn number`: `'0'..='9' | '.'`. -/
def isNumChar (c : Char) : Bool := c.isDigit || c == '.'

/-- Numeric value of a digit run, as accumulated by decimal reading. -/
def digitsVal (cs : List Char) : Nat :=
  cs.foldl (fun acc c => acc * 10 + (c.toNat - 48)) 0

/-- Models `str::parse::<i32>` restricted to the token alphabet of `fn number`
(digits and dots, never a sign): it succeeds exactly on a nonempty all-digit
token whose value fits in `i32` (at most `2147483647`), and yields that value. -/
def rustParseI32 (cs : List Char) : Option Int :=
  if cs ≠ [] ∧ cs.all Char.isDigit ∧ digitsVal cs ≤ 2147483647 then
    some (Int.ofNat (digitsVal cs))
  else none

/-- Models `str::parse::<f32>` restricted to the token alphabet of `fn number`:
it succeeds exactly on a nonempty digit/dot token with at most one dot and at
least one digit, and yields the exact decimal value as `(mantissa, scale)`
with value `mant / 10 ^ scale` (IEEE-754 rounding and overflow-to-infinity
are not modelled; no claim depends on them). -/
def rustParseF32 (cs : List Char) : Option (Int × Nat) :=
  if cs ≠ [] ∧ cs.all isNumChar ∧ cs.count '.' ≤ 1 ∧ cs.any Char.isDigit then
    some (Int.ofNat (digitsVal (cs.filter Char.isDigit)),
          (cs.dropWhile (fun c => c != '.')).length - 1)
  else none

/-- Embeds `fn number`: greedily take the maximal digit/dot run, then try
`parse::<i32>`, then `parse::<f32>`, else panic (`MalformedNumber`). -/
def number (s : List Char) : Except Perr (Node × List Char) :=
  match rustParseI32 (s.takeWhile isNumChar) with
  | some n => .ok (.IntLiteral n, s.dropWhile isNumChar)
  | none =>
    match rustParseF32 (s.takeWhile isNumChar) with
    | some p => .ok (.FloatLiteral p.1 p.2, s.dropWhile isNumChar)
    | none => .error .MalformedNumber

/-- Embeds `fn null`: four asserted `next()` calls spelling `null`. -/
def null : List Char → Except Perr (Node × List Char)
  | 'n' :: 'u' :: 'l' :: 'l' :: rest => .ok (.NullLiteral, rest)
  | _ => .error .MalformedLiteral

/-- Embeds `fn parse_true`: four asserted `next()` calls spelling `true`. -/
def parse_true : List Char → Except Perr (Node × List Char)
  | 't' :: 'r' :: 'u' :: 'e' :: rest => .ok (.BoolLiteral true, rest)
  | _ => .error .MalformedLiteral

/-- Embeds `fn parse_false`: five asserted `next()` calls spelling `false`. -/
def parse_false : List Char → Except Perr (Node × List Char)
  | 'f' :: 'a' :: 'l' :: 's' :: 'e' :: rest => .ok (.BoolLiteral false, rest)
  | _ => .error .MalformedLiteral

/-- Embeds `HashMap::insert` on the association-list model of the object map:
if the key is present its value is replaced in place, otherwise the pair is
appended; this is the key-replace (last-write-wins) semantics. -/
def insertReplace (m : List (String × Node)) (k : String) (v : Node) :
    List (String × Node) :=
  match m with
  | [] => [(k, v)]
  | (k1, v1) :: rest =>
    if k1 = k then (k, v) :: rest else (k1, v1) :: insertReplace rest k v

/-- Embeds `HashMap::get` on the association-list model. -/
def lookupKey (m : List (String × Node)) (k : String) : Option Node :=
  match m with
  | [] => none
  | (k1, v1) :: rest => if k1 = k then some v1 else lookupKey rest k

mutual

/-- Embeds `fn value`: skip whitespace, then dispatch on one peeked character;
`peek().unwrap()` on exhausted input is the `UnexpectedEndOfInput` panic and
an unrecognized character is the `UnexpectedCharacter` panic.  The `{`/`[`
branches enter `fn object`/`fn array`, whose first action is to consume that
character; here that consumption is the `rest` argument passed to the loop. -/
def value : Nat → List Char → Except Perr (Node × List Char)
  | 0, _ => .error .OutOfFuel
  | f + 1, s =>
    match skip_space s with
    | [] => .error .UnexpectedEndOfInput
    | c :: rest =>
      if c.isDigit then number (c :: rest)
      else if c == '"' then
        .ok (.StringLiteral (String.mk (string (c :: rest)).1), (string (c :: rest)).2)
      else if c == '{' then objectLoop f rest []
      else if c == '[' then arrayLoop f rest []
      else if c == 'n' then null (c :: rest)
      else if c == 't' then parse_true (c :: rest)
      else if c == 'f' then parse_false (c :: rest)
      else .error .UnexpectedCharacter

/-- Embeds the loop of `fn object` (entered after `{` is consumed), carrying
the map built so far: skip whitespace; if the lookahead is not `"`, an
asserted `next() == Some('}')` closes the object (`UnexpectedToken` panic
otherwise); else parse a key string, skip whitespace, assert `:`
(`ExpectedColon`), parse a value, assert `,` with no whitespace skip
(`ExpectedComma`), insert the pair, and continue. -/
def objectLoop : Nat → List Char → List (String × Node) →
    Except Perr (Node × List Char)
  | 0, _, _ => .error .OutOfFuel
  | f + 1, s, acc =>
    match skip_space s with
    | '"' :: rest =>
      match skip_space (string ('"' :: rest)).2 with
      | ':' :: rest2 =>
        match value f rest2 with
        | .ok (v, rest3) =>
          match rest3 with
          | ',' :: rest4 =>
            objectLoop f rest4 (insertReplace acc (String.mk (string ('"' :: rest)).1) v)
          | _ => .error .ExpectedComma
        | .error e => .error e
      | _ => .error .ExpectedColon
    | '}' :: rest => .ok (.Object acc, rest)
    | _ => .error .UnexpectedToken

/-- Embeds the loop of `fn array` (entered after `[` is consumed), carrying
the elements built so far: skip whitespace; a `]` lookahead is consumed and
closes the array; otherwise parse a value, skip whitespace, assert `,`
(`ExpectedComma`), push the element, and continue. -/
def arrayLoop : Nat → List Char → List Node → Except Perr (Node × List Char)
  | 0, _, _ => .error .OutOfFuel
  | f + 1, s, acc =>
    match skip_space s with
    | ']' :: rest => .ok (.Array acc, rest)
    | s1 =>
      match value f s1 with
      | .ok (v, rest2) =>
        match skip_space rest2 with
        | ',' :: rest3 => arrayLoop f rest3 (acc ++ [v])
        | _ => .error .ExpectedComma
      | .error e => .error e

end

/-- Embeds `fn parse`: run `fn value` once on the whole input and return its
node, discarding whatever input remains.  The fuel `2 * length + 1` is proved
sufficient (`noFuel`). -/
def parse (s : String) : Except Perr Node :=
  (value (2 * s.data.length + 1) s.data).map Prod.fst

mutual

/-- Nesting depth of a node: leaves have depth 1, containers one more than
their deepest child. -/
def depth : Node → Nat
  | .IntLiteral _ => 1
  | .FloatLiteral _ _ => 1
  | .StringLiteral _ => 1
  | .NullLiteral => 1
  | .BoolLiteral _ => 1
  | .Object m => 1 + depthEntries m
  | .Array a => 1 + depthList a

/-- Deepest value in a list of object entries (0 when empty). -/
def depthEntries : List (String × Node) → Nat
  | [] => 0
  | (_, v) :: rest => max (depth v) (depthEntries rest)

/-- Deepest node in a list (0 when empty). -/
def depthList : List Node → Nat
  | [] => 0
  | v :: rest => max (depth v) (depthList rest)

end

theorem skip_space_length_le (s : List Char) : (skip_space s).length ≤ s.length := by
  induction s with
  | nil => simp [skip_space]
  | cons c rest ih =>
    simp only [skip_space]
    split
    · exact Nat.le_trans ih (Nat.le_succ _)
    · exact Nat.le_refl _

theorem skip_space_eq_dropWhile (s : List Char) :
    skip_space s = s.dropWhile (fun c => c == ' ' || c == '\n' || c == '\t') := by
  induction s with
  | nil => rfl
  | cons c rest ih =>
    simp only [skip_space, List.dropWhile_cons]
    split <;> simp_all

theorem strLoop_snd_length_le (s : List Char) : (strLoop s).2.length ≤ s.length := by
  induction s with
  | nil => simp [strLoop]
  | cons c rest ih =>
    simp only [strLoop]
    split
    · exact Nat.le_succ _
    · exact Nat.le_trans ih (Nat.le_succ _)

theorem strLoop_append (cs rest : List Char) (h : '"' ∉ cs) :
    strLoop (cs ++ '"' :: rest) = (cs, rest) := by
  induction cs with
  | nil => simp [strLoop]
  | cons c cs2 ih =>
    have hc : ¬ (c == '"') = true := by
      simp only [List.mem_cons] at h
      simp only [beq_iff_eq]
      exact fun hcq => h (Or.inl hcq.symm)
    have h2 : '"' ∉ cs2 := fun hm => h (List.mem_cons_of_mem _ hm)
    simp [strLoop, hc, ih h2]

theorem strLoop_no_quote (s : List Char) : '"' ∉ (strLoop s).1 := by
  induction s with
  | nil => simp [strLoop]
  | cons c rest ih =>
    simp only [strLoop]
    split
    · simp
    · next hc =>
      simp only [List.mem_cons]
      rintro (h | h)
      · exact hc (beq_iff_eq.mpr h.symm)
      · exact ih h

theorem number_ok (s : List Char) (v : Node) (r : List Char)
    (h : number s = .ok (v, r)) :
    r = s.dropWhile isNumChar ∧
      ((∃ n, v = .IntLiteral n) ∨ (∃ a b, v = .FloatLiteral a b)) := by
  unfold number at h
  split at h
  · cases h
    exact ⟨rfl, Or.inl ⟨_, rfl⟩⟩
  · split at h
    · cases h
      exact ⟨rfl, Or.inr ⟨_, _, rfl⟩⟩
    · cases h

theorem number_not_fuel (s : List Char) : number s ≠ .error .OutOfFuel := by
  unfold number
  split
  · intro h; cases h
  · split
    · intro h; cases h
    · intro h; cases h

theorem null_ok (s : List Char) (v : Node) (r : List Char)
    (h : null s = .ok (v, r)) : v = .NullLiteral ∧ s = 'n' :: 'u' :: 'l' :: 'l' :: r := by
  unfold null at h
  split at h
  · cases h; exact ⟨rfl, rfl⟩
  · cases h

theorem null_not_fuel (s : List Char) : null s ≠ .error .OutOfFuel := by
  unfold null
  split
  · intro h; cases h
  · intro h; cases h

theorem parse_true_ok (s : List Char) (v : Node) (r : List Char)
    (h : parse_true s = .ok (v, r)) :
    v = .BoolLiteral true ∧ s = 't' :: 'r' :: 'u' :: 'e' :: r := by
  unfold parse_true at h
  split at h
  · cases h; exact ⟨rfl, rfl⟩
  · cases h

theorem parse_true_not_fuel (s : List Char) : parse_true s ≠ .error .OutOfFuel := by
  unfold parse_true
  split
  · intro h; cases h
  · intro h; cases h

theorem parse_false_ok (s : List Char) (v : Node) (r : List Char)
    (h : parse_false s = .ok (v, r)) :
    v = .BoolLiteral false ∧ s = 'f' :: 'a' :: 'l' :: 's' :: 'e' :: r := by
  unfold parse_false at h
  split at h
  · cases h; exact ⟨rfl, rfl⟩
  · cases h

theorem parse_false_not_fuel (s : List Char) : parse_false s ≠ .error .OutOfFuel := by
  unfold parse_false
  split
  · intro h; cases h
  · intro h; cases h

@[simp] theorem depth_IntLiteral (n : Int) : depth (.IntLiteral n) = 1 := by
  simp [depth]

@[simp] theorem depth_FloatLiteral (a : Int) (b : Nat) :
    depth (.FloatLiteral a b) = 1 := by simp [depth]

@[simp] theorem depth_StringLiteral (t : String) :
    depth (.StringLiteral t) = 1 := by simp [depth]

@[simp] theorem depth_NullLiteral : depth .NullLiteral = 1 := by simp [depth]

@[simp] theorem depth_BoolLiteral (b : Bool) : depth (.BoolLiteral b) = 1 := by
  simp [depth]

@[simp] theorem depth_Object (m : List (String × Node)) :
    depth (.Object m) = 1 + depthEntries m := by simp [depth]

@[simp] theorem depth_Array (a : List Node) :
    depth (.Array a) = 1 + depthList a := by simp [depth]

theorem depth_pos (v : Node) : 1 ≤ depth v := by
  cases v <;> simp

@[simp] theorem depthEntries_nil : depthEntries [] = 0 := by simp [depthEntries]

@[simp] theorem depthEntries_cons (k : String) (v : Node)
    (rest : List (String × Node)) :
    depthEntries ((k, v) :: rest) = max (depth v) (depthEntries rest) := by
  simp [depthEntries]

@[simp] theorem depthList_nil : depthList [] = 0 := by simp [depthList]

@[simp] theorem depthList_cons (v : Node) (rest : List Node) :
    depthList (v :: rest) = max (depth v) (depthList rest) := by
  simp [depthList]

theorem depthList_snoc_le (l : List Node) (v : Node) :
    depthList (l ++ [v]) ≤ depthList l + depth v := by
  induction l with
  | nil => simp
  | cons a l ih =>
    simp only [List.cons_append, depthList_cons]
    refine Nat.max_le.mpr ⟨?_, ?_⟩
    · exact Nat.le_trans (Nat.le_max_left _ _) (Nat.le_add_right _ _)
    · exact Nat.le_trans ih (Nat.add_le_add_right (Nat.le_max_right _ _) _)

theorem depthEntries_insertReplace_le (m : List (String × Node)) (k : String)
    (v : Node) :
    depthEntries (insertReplace m k v) ≤ depthEntries m + depth v := by
  induction m with
  | nil =>
    simp [insertReplace]
  | cons a rest ih =>
    obtain ⟨k1, v1⟩ := a
    simp only [insertReplace]
    split
    · simp only [depthEntries_cons]
      refine Nat.max_le.mpr ⟨?_, ?_⟩
      · exact Nat.le_trans (Nat.le_add_left _ _)
          (Nat.add_le_add_right (Nat.le_max_left _ _) _)
      · exact Nat.le_trans (Nat.le_max_right _ _) (Nat.le_add_right _ _)
    · simp only [depthEntries_cons]
      refine Nat.max_le.mpr ⟨?_, ?_⟩
      · exact Nat.le_trans (Nat.le_max_left _ _) (Nat.le_add_right _ _)
      · exact Nat.le_trans ih (Nat.add_le_add_right (Nat.le_max_right _ _) _)

theorem dropWhile_length_le (p : Char → Bool) (l : List Char) :
    (l.dropWhile p).length ≤ l.length := by
  induction l with
  | nil => simp
  | cons a l ih =>
    rw [List.dropWhile_cons]
    split
    · exact Nat.le_trans ih (Nat.le_succ _)
    · exact Nat.le_refl _

theorem consume : ∀ f,
    (∀ s v r, value f s = .ok (v, r) → depth v + r.length ≤ s.length) ∧
    (∀ s acc n r, objectLoop f s acc = .ok (n, r) →
      depth n + r.length ≤ s.length + 1 + depthEntries acc) ∧
    (∀ s acc n r, arrayLoop f s acc = .ok (n, r) →
      depth n + r.length ≤ s.length + 1 + depthList acc) := by
  intro f
  induction f with
  | zero =>
    refine ⟨fun s v r h => ?_, fun s acc n r h => ?_, fun s acc n r h => ?_⟩ <;>
      simp [value, objectLoop, arrayLoop] at h
  | succ f ih =>
    obtain ⟨ihv, iho, iha⟩ := ih
    refine ⟨?_, ?_, ?_⟩
    · intro s v r h
      have hss := skip_space_length_le s
      simp only [value] at h
      split at h
      · simp at h
      · next c rest heq =>
        rw [heq] at hss
        simp only [List.length_cons] at hss
        split at h
        · next hdig =>
          obtain ⟨hr, hv⟩ := number_ok _ _ _ h
          have h1 : depth v = 1 := by
            rcases hv with ⟨n, rfl⟩ | ⟨a, b, rfl⟩ <;> simp
          have h2 : r.length ≤ rest.length := by
            rw [hr, List.dropWhile_cons]
            have hn : isNumChar c = true := by simp [isNumChar, hdig]
            rw [if_pos hn]
            exact dropWhile_length_le _ _
          omega
        · split at h
          · cases h
            have h2 : (string (c :: rest)).2.length ≤ rest.length := by
              simp only [string, List.drop_succ_cons, List.drop_zero]
              exact strLoop_snd_length_le rest
            simp only [depth_StringLiteral]
            omega
          · split at h
            · have hioh := iho rest [] _ _ h
              simp only [depthEntries_nil] at hioh
              omega
            · split at h
              · have hiah := iha rest [] _ _ h
                simp only [depthList_nil] at hiah
                omega
              · split at h
                · obtain ⟨hv, hs⟩ := null_ok _ _ _ h
                  subst hv
                  obtain ⟨hc, hrest⟩ := List.cons.inj hs
                  have hlen : rest.length = r.length + 3 := by rw [hrest]; simp
                  simp only [depth_NullLiteral]
                  omega
                · split at h
                  · obtain ⟨hv, hs⟩ := parse_true_ok _ _ _ h
                    subst hv
                    obtain ⟨hc, hrest⟩ := List.cons.inj hs
                    have hlen : rest.length = r.length + 3 := by rw [hrest]; simp
                    simp only [depth_BoolLiteral]
                    omega
                  · split at h
                    · obtain ⟨hv, hs⟩ := parse_false_ok _ _ _ h
                      subst hv
                      obtain ⟨hc, hrest⟩ := List.cons.inj hs
                      have hlen : rest.length = r.length + 4 := by rw [hrest]; simp
                      simp only [depth_BoolLiteral]
                      omega
                    · simp at h
    · intro s acc n r h
      have hss := skip_space_length_le s
      simp only [objectLoop] at h
      split at h
      · next rest heq =>
        rw [heq] at hss
        simp only [List.length_cons] at hss
        split at h
        · next rest2 heq2 =>
          split at h
          · next v1 rest3 heq3 =>
            split at h
            · rename_i rest4
              have hv := ihv rest2 v1 (',' :: rest4) heq3
              have hkey := iho rest4
                (insertReplace acc (String.mk (string ('"' :: rest)).1) v1) n r h
              have hins := depthEntries_insertReplace_le acc
                (String.mk (string ('"' :: rest)).1) v1
              have hstr : (string ('"' :: rest)).2.length ≤ rest.length := by
                simp only [string, List.drop_succ_cons, List.drop_zero]
                exact strLoop_snd_length_le rest
              have hsk2 := skip_space_length_le (string ('"' :: rest)).2
              rw [heq2] at hsk2
              simp only [List.length_cons] at hsk2
              simp only [List.length_cons] at hv
              have hd := depth_pos v1
              omega
            · simp at h
          · simp at h
        · simp at h
      · next rest heq =>
        rw [heq] at hss
        simp only [List.length_cons] at hss
        cases h
        simp only [depth_Object]
        omega
      · simp at h
    · intro s acc n r h
      have hss := skip_space_length_le s
      simp only [arrayLoop] at h
      split at h
      · next rest heq =>
        rw [heq] at hss
        simp only [List.length_cons] at hss
        cases h
        simp only [depth_Array]
        omega
      · split at h
        · next v1 rest2 heq2 =>
          split at h
          · next rest3 heq3 =>
            have hv := ihv _ v1 rest2 heq2
            have hrec := iha rest3 (acc ++ [v1]) n r h
            have hsnoc := depthList_snoc_le acc v1
            have hsk3 := skip_space_length_le rest2
            rw [heq3] at hsk3
            simp only [List.length_cons] at hsk3
            have hd := depth_pos v1
            omega
          · simp at h
        · simp at h

theorem noFuel : ∀ f,
    (∀ s, 2 * s.length < f → value f s ≠ .error .OutOfFuel) ∧
    (∀ s acc, 2 * s.length + 1 < f → objectLoop f s acc ≠ .error .OutOfFuel) ∧
    (∀ s acc, 2 * s.length + 1 < f → arrayLoop f s acc ≠ .error .OutOfFuel) := by
  intro f
  induction f with
  | zero =>
    exact ⟨fun s h => absurd h (by omega), fun s acc h => absurd h (by omega),
      fun s acc h => absurd h (by omega)⟩
  | succ f ih =>
    obtain ⟨ihv, iho, iha⟩ := ih
    refine ⟨?_, ?_, ?_⟩
    · intro s hlt
      have hss := skip_space_length_le s
      simp only [value]
      split
      · simp
      · next c rest heq =>
        rw [heq] at hss
        simp only [List.length_cons] at hss
        split
        · exact number_not_fuel _
        · split
          · simp
          · split
            · exact iho rest [] (by omega)
            · split
              · exact iha rest [] (by omega)
              · split
                · exact null_not_fuel _
                · split
                  · exact parse_true_not_fuel _
                  · split
                    · exact parse_false_not_fuel _
                    · simp
    · intro s acc hlt
      have hss := skip_space_length_le s
      simp only [objectLoop]
      split
      · next rest heq =>
        rw [heq] at hss
        simp only [List.length_cons] at hss
        have hstr : (string ('"' :: rest)).2.length ≤ rest.length := by
          simp only [string, List.drop_succ_cons, List.drop_zero]
          exact strLoop_snd_length_le rest
        split
        · next rest2 heq2 =>
          have hsk2 := skip_space_length_le (string ('"' :: rest)).2
          rw [heq2] at hsk2
          simp only [List.length_cons] at hsk2
          split
          · next v1 rest3 heq3 =>
            split
            · rename_i rest4
              have hcons := (consume f).1 rest2 v1 (',' :: rest4) heq3
              simp only [List.length_cons] at hcons
              have hd := depth_pos v1
              exact iho rest4 _ (by omega)
            · simp
          · next e heq3 =>
            intro hcon
            injection hcon with he
            subst he
            exact ihv rest2 (by omega) heq3
        · simp
      · simp
      · simp
    · intro s acc hlt
      have hss := skip_space_length_le s
      simp only [arrayLoop]
      split
      · simp
      · split
        · next v1 rest2 heq2 =>
          have hcons := (consume f).1 _ v1 rest2 heq2
          have hd := depth_pos v1
          split
          · next rest3 heq3 =>
            have hsk3 := skip_space_length_le rest2
            rw [heq3] at hsk3
            simp only [List.length_cons] at hsk3
            exact iha rest3 _ (by omega)
          · simp
        · next e heq2 =>
          intro hcon
          injection hcon with he
          subst he
          exact ihv _ (by omega) heq2

theorem lookupKey_insertReplace (m : List (String × Node)) (k : String) (v : Node) :
    lookupKey (insertReplace m k v) k = some v := by
  induction m with
  | nil => simp [insertReplace, lookupKey]
  | cons a rest ih =>
    obtain ⟨k1, v1⟩ := a
    simp only [insertReplace]
    split
    · simp [lookupKey]
    · next hne => simp [lookupKey, hne, ih]

theorem lookupKey_insertReplace_ne (m : List (String × Node)) (k k2 : String)
    (v : Node) (h : k2 ≠ k) :
    lookupKey (insertReplace m k v) k2 = lookupKey m k2 := by
  induction m with
  | nil =>
    simp only [insertReplace, lookupKey]
    rw [if_neg (fun hh => h hh.symm)]
  | cons a rest ih =>
    obtain ⟨k1, v1⟩ := a
    simp only [insertReplace]
    split
    · next he =>
      subst he
      simp only [lookupKey]
      rw [if_neg (fun hh => h hh.symm), if_neg (fun hh => h hh.symm)]
    · simp only [lookupKey]
      split
      · rfl
      · exact ih

theorem mem_keys_insertReplace (m : List (String × Node)) (k a : String) (v : Node)
    (h : a ∈ (insertReplace m k v).map Prod.fst) :
    a = k ∨ a ∈ m.map Prod.fst := by
  induction m with
  | nil =>
    simp [insertReplace] at h
    exact Or.inl h
  | cons p rest ih =>
    obtain ⟨k1, v1⟩ := p
    simp only [insertReplace] at h
    split at h
    · next he =>
      subst he
      simp only [List.map_cons, List.mem_cons] at h ⊢
      rcases h with h | h
      · exact Or.inl h
      · exact Or.inr (Or.inr h)
    · simp only [List.map_cons, List.mem_cons] at h ⊢
      rcases h with h | h
      · exact Or.inr (Or.inl h)
      · rcases ih h with h2 | h2
        · exact Or.inl h2
        · exact Or.inr (Or.inr h2)

theorem insertReplace_nodup (m : List (String × Node)) (k : String) (v : Node)
    (h : (m.map Prod.fst).Nodup) : ((insertReplace m k v).map Prod.fst).Nodup := by
  induction m with
  | nil => simp [insertReplace]
  | cons p rest ih =>
    obtain ⟨k1, v1⟩ := p
    simp only [List.map_cons, List.nodup_cons] at h
    obtain ⟨hnm, hnd⟩ := h
    simp only [insertReplace]
    split
    · next he =>
      subst he
      simp only [List.map_cons, List.nodup_cons]
      exact ⟨hnm, hnd⟩
    · next hne =>
      simp only [List.map_cons, List.nodup_cons]
      refine ⟨?_, ih hnd⟩
      intro hmem
      rcases mem_keys_insertReplace rest k k1 v hmem with h2 | h2
      · exact hne h2
      · exact hnm h2

theorem arrayLoop_shape (f : Nat) (s : List Char) (acc : List Node) (n : Node)
    (r : List Char) (h : arrayLoop f s acc = .ok (n, r)) : ∃ l, n = .Array l := by
  induction f generalizing s acc with
  | zero => simp [arrayLoop] at h
  | succ f ih =>
    simp only [arrayLoop] at h
    split at h
    · cases h; exact ⟨_, rfl⟩
    · split at h
      · split at h
        · exact ih _ _ h
        · simp at h
      · simp at h

theorem objectLoop_keys (f : Nat) (s : List Char) (acc : List (String × Node))
    (m : List (String × Node)) (r : List Char)
    (h : objectLoop f s acc = .ok (.Object m, r))
    (hacc : (acc.map Prod.fst).Nodup) : (m.map Prod.fst).Nodup := by
  induction f generalizing s acc with
  | zero => simp [objectLoop] at h
  | succ f ih =>
    simp only [objectLoop] at h
    split at h
    · split at h
      · split at h
        · split at h
          · exact ih _ _ h (insertReplace_nodup _ _ _ hacc)
          · simp at h
        · simp at h
      · simp at h
    · cases h; exact hacc
    · simp at h

theorem objectLoop_shape (f : Nat) (s : List Char) (acc : List (String × Node))
    (n : Node) (r : List Char) (h : objectLoop f s acc = .ok (n, r)) :
    ∃ l, n = .Object l := by
  induction f generalizing s acc with
  | zero => simp [objectLoop] at h
  | succ f ih =>
    simp only [objectLoop] at h
    split at h
    · split at h
      · split at h
        · split at h
          · exact ih _ _ h
          · simp at h
        · simp at h
      · simp at h
    · cases h; exact ⟨_, rfl⟩
    · simp at h

theorem value_object_nodup (f : Nat) (s : List Char) (m : List (String × Node))
    (r : List Char) (h : value f s = .ok (.Object m, r)) :
    (m.map Prod.fst).Nodup := by
  cases f with
  | zero => simp [value] at h
  | succ f =>
    simp only [value] at h
    split at h
    · simp at h
    · split at h
      · obtain ⟨hr, hv⟩ := number_ok _ _ _ h
        rcases hv with ⟨n, hn⟩ | ⟨a, b, hn⟩ <;> cases hn
      · split at h
        · cases h
        · split at h
          · exact objectLoop_keys _ _ _ _ _ h (by simp)
          · split at h
            · obtain ⟨l, hl⟩ := arrayLoop_shape _ _ _ _ _ h
              cases hl
            · split at h
              · obtain ⟨hv, _⟩ := null_ok _ _ _ h
                cases hv
              · split at h
                · obtain ⟨hv, _⟩ := parse_true_ok _ _ _ h
                  cases hv
                · split at h
                  · obtain ⟨hv, _⟩ := parse_false_ok _ _ _ h
                    cases hv
                  · simp at h

theorem value_unexpected_char (f : Nat) (s : List Char) (c : Char) (rest : List Char)
    (heq : skip_space s = c :: rest) (hd : c.isDigit = false) (h1 : c ≠ '"')
    (h2 : c ≠ '{') (h3 : c ≠ '[') (h4 : c ≠ 'n') (h5 : c ≠ 't') (h6 : c ≠ 'f') :
    value (f + 1) s = .error .UnexpectedCharacter := by
  simp only [value, heq]
  rw [if_neg (by simp [hd]), if_neg (by simp [h1]), if_neg (by simp [h2]),
    if_neg (by simp [h3]), if_neg (by simp [h4]), if_neg (by simp [h5]),
    if_neg (by simp [h6])]

/-- C1: trailing commas are mandatory in both structural productions: the
closing brace is only reachable when the lookahead is not a quote, and the
closing bracket check happens before each element, so after every object
member and every array element the very next token must be a comma; the four
concrete contract inputs behave as stated. -/
theorem claim_C1 :
    parse ("\x7b\"key\": 123,\x7d") = .ok (.Object [("key", .IntLiteral 123)]) ∧
    parse ("[1, 2, 3,]") = .ok (.Array [.IntLiteral 1, .IntLiteral 2, .IntLiteral 3]) ∧
    parse ("\x7b\"key\": 123\x7d") = .error .ExpectedComma ∧
    parse ("[1, 2, 3]") = .error .ExpectedComma ∧
    (∀ f s acc v rest2, (skip_space s).head? ≠ some ']' →
      value f (skip_space s) = .ok (v, rest2) →
      (skip_space rest2).head? ≠ some ',' →
      arrayLoop (f + 1) s acc = .error .ExpectedComma) ∧
    (∀ f s acc rest1 rest2 v rest3, skip_space s = '"' :: rest1 →
      skip_space (string ('"' :: rest1)).2 = ':' :: rest2 →
      value f rest2 = .ok (v, rest3) → rest3.head? ≠ some ',' →
      objectLoop (f + 1) s acc = .error .ExpectedComma) := by
  refine ⟨rfl, rfl, rfl, rfl, ?_, ?_⟩
  · intro f s acc v rest2 hne hval hcomma
    simp only [arrayLoop]
    split
    · next rest heq => rw [heq] at hne; simp at hne
    · simp only [hval]
      split
      · next rest3 heq3 => rw [heq3] at hcomma; simp at hcomma
      · rfl
  · intro f s acc rest1 rest2 v rest3 hq hcolon hval hcomma
    simp only [objectLoop, hq, hcolon, hval]
    split
    · simp at hcomma
    · rfl

theorem claim_C1_witness :
    arrayLoop 2 ('1' :: ']' :: []) [] = .error .ExpectedComma ∧
    objectLoop 2 ('"' :: 'a' :: '"' :: ':' :: '1' :: '\x7d' :: []) [] =
      .error .ExpectedComma := by
  constructor
  · exact claim_C1.2.2.2.2.1 1 ('1' :: ']' :: []) [] (.IntLiteral 1) (']' :: [])
      (by decide) (by rfl) (by decide)
  · exact claim_C1.2.2.2.2.2 1 ('"' :: 'a' :: '"' :: ':' :: '1' :: '\x7d' :: []) []
      ('a' :: '"' :: ':' :: '1' :: '\x7d' :: []) ('1' :: '\x7d' :: [])
      (.IntLiteral 1) ('\x7d' :: [])
      (by rfl) (by rfl) (by rfl) (by decide)

/-- C2 (amended): for integer-literal text without a dot whose value fits in a
signed 32-bit integer, parsing yields `IntLiteral` with the exact value (a
no-dot digit run beyond the i32 range instead falls through to the float
path, see the counterexample); for text with a dot accepted by the f32
conversion, parsing yields `FloatLiteral` with the converted value; the
number production tries the i32 conversion first, then the f32 conversion,
and fails with `MalformedNumber` exactly when both fail. -/
theorem claim_C2 :
    (∀ s : List Char, (s.takeWhile isNumChar).all Char.isDigit = true →
      s.takeWhile isNumChar ≠ [] →
      digitsVal (s.takeWhile isNumChar) ≤ 2147483647 →
      number s = .ok (.IntLiteral (Int.ofNat (digitsVal (s.takeWhile isNumChar))),
        s.dropWhile isNumChar)) ∧
    (∀ (s : List Char) (m : Int) (e : Nat), '.' ∈ s.takeWhile isNumChar →
      rustParseF32 (s.takeWhile isNumChar) = some (m, e) →
      number s = .ok (.FloatLiteral m e, s.dropWhile isNumChar)) ∧
    (∀ s : List Char, number s = .error .MalformedNumber ↔
      rustParseI32 (s.takeWhile isNumChar) = none ∧
      rustParseF32 (s.takeWhile isNumChar) = none) := by
  refine ⟨?_, ?_, ?_⟩
  · intro s hall hne hbound
    have hi : rustParseI32 (s.takeWhile isNumChar) =
        some (Int.ofNat (digitsVal (s.takeWhile isNumChar))) := by
      unfold rustParseI32
      rw [if_pos ⟨hne, hall, hbound⟩]
    unfold number
    rw [hi]
  · intro s m e hdot hf
    have hi : rustParseI32 (s.takeWhile isNumChar) = none := by
      unfold rustParseI32
      rw [if_neg]
      rintro ⟨-, hall, -⟩
      have hmem := List.all_eq_true.mp hall '.' hdot
      simp [Char.isDigit] at hmem
    unfold number
    rw [hi, hf]
  · intro s
    constructor
    · intro h
      unfold number at h
      split at h
      · simp at h
      · next h1 =>
        split at h
        · simp at h
        · next h2 => exact ⟨h1, h2⟩
    · rintro ⟨h1, h2⟩
      unfold number
      rw [h1, h2]

theorem claim_C2_witness :
    number ('1' :: '2' :: '3' :: []) = .ok (.IntLiteral 123, []) ∧
    number ('1' :: '.' :: '5' :: []) = .ok (.FloatLiteral 15 1, []) :=
  ⟨claim_C2.1 ('1' :: '2' :: '3' :: []) (by decide) (by decide) (by decide),
   claim_C2.2.1 ('1' :: '.' :: '5' :: []) 15 1 (by decide) (by decide)⟩

theorem claim_C2_counterexample :
    parse ("2147483648") = .ok (.FloatLiteral 2147483648 0) ∧
    Node.FloatLiteral 2147483648 0 ≠ Node.IntLiteral 2147483648 :=
  ⟨rfl, fun h => Node.noConfusion h⟩

/-- C3: on the unterminated string literal `"abc` the source does not fail;
`fn string` silently stops at end of input and the parse returns the `Text`
value built from the characters consumed so far, contradicting the claimed
malformed/incomplete-input failure (the spec flags this source behavior as a
likely defect in §9). -/
theorem claim_C3_behavior : parse ("\"abc") = .ok (.StringLiteral ("abc")) := rfl

/-- C4: the value production, after skipping whitespace, dispatches on one
peeked character; exhausted input where a value is required (including empty
input) is `UnexpectedEndOfInput`, any first character outside the dispatch
set (digit, quote, braces, brackets, n, t, f) is `UnexpectedCharacter`, and
in particular a leading minus sign is rejected, so negative number literals
never parse. -/
theorem claim_C4 : ∀ (f : Nat) (s : List Char),
    (skip_space s = [] → value (f + 1) s = .error .UnexpectedEndOfInput) ∧
    (∀ c rest, skip_space s = c :: rest → c.isDigit = false → c ≠ '"' → c ≠ '{' →
      c ≠ '[' → c ≠ 'n' → c ≠ 't' → c ≠ 'f' →
      value (f + 1) s = .error .UnexpectedCharacter) ∧
    (∀ rest, skip_space s = '-' :: rest →
      value (f + 1) s = .error .UnexpectedCharacter) := by
  intro f s
  refine ⟨?_, ?_, ?_⟩
  · intro h
    simp [value, h]
  · intro c rest heq hd h1 h2 h3 h4 h5 h6
    exact value_unexpected_char f s c rest heq hd h1 h2 h3 h4 h5 h6
  · intro rest heq
    exact value_unexpected_char f s '-' rest heq (by decide) (by decide) (by decide)
      (by decide) (by decide) (by decide) (by decide)

theorem claim_C4_witness :
    value 1 ('-' :: '5' :: []) = .error .UnexpectedCharacter ∧
    value 1 [] = .error .UnexpectedEndOfInput :=
  ⟨(claim_C4 0 ('-' :: '5' :: [])).2.2 ('5' :: []) (by rfl),
   (claim_C4 0 []).1 (by rfl)⟩

/-- C5: the object production checks the comma immediately after a member's
value with no whitespace skip, while the array production skips whitespace
before its comma check: with any whitespace character between value and
comma, the object input fails with `ExpectedComma` while the array input
parses successfully. -/
theorem claim_C5 :
    parse ("\x7b\"a\": 1 ,\x7d") = .error .ExpectedComma ∧
    parse ("[1 ,]") = .ok (.Array [.IntLiteral 1]) ∧
    (∀ c, (c = ' ' ∨ c = '\n' ∨ c = '\t') →
      value 9 ('\x7b' :: '"' :: 'a' :: '"' :: ':' :: '1' :: c :: ',' :: '\x7d' :: []) =
        .error .ExpectedComma ∧
      value 9 ('[' :: '1' :: c :: ',' :: ']' :: []) =
        .ok (.Array [.IntLiteral 1], [])) := by
  refine ⟨rfl, rfl, ?_⟩
  rintro c (rfl | rfl | rfl) <;> exact ⟨rfl, rfl⟩

theorem claim_C5_witness :
    value 9 ('[' :: '1' :: '\t' :: ',' :: ']' :: []) =
      .ok (.Array [.IntLiteral 1], []) :=
  (claim_C5.2.2 '\t' (Or.inr (Or.inr rfl))).2

/-- C6: every `Object` node returned by the value production has exactly one
entry per distinct key (its key list is duplicate-free), insertion uses
key-replace semantics so the value of the textually last occurrence of a key
wins while other keys are untouched, and the duplicate-key example parses to
a one-entry object holding the value 2. -/
theorem claim_C6 :
    (∀ f s m rest, value f s = .ok (.Object m, rest) → (m.map Prod.fst).Nodup) ∧
    (∀ m k v, lookupKey (insertReplace m k v) k = some v) ∧
    (∀ m k k2 v, k2 ≠ k → lookupKey (insertReplace m k v) k2 = lookupKey m k2) ∧
    parse ("\x7b\"a\": 1, \"a\": 2,\x7d") = .ok (.Object [("a", .IntLiteral 2)]) :=
  ⟨value_object_nodup, lookupKey_insertReplace,
   fun m k k2 v h => lookupKey_insertReplace_ne m k k2 v h, rfl⟩

theorem claim_C6_witness :
    (([(("a" : String), Node.IntLiteral 2)]).map Prod.fst).Nodup :=
  claim_C6.1 100 (("\x7b\"a\": 1, \"a\": 2,\x7d" : String).data)
    [("a", .IntLiteral 2)] [] (by rfl)

/-- C7: the discarded whitespace is exactly a maximal run of space, newline
and tab (`skip_space` agrees with `dropWhile` on that three-character set);
carriage return is not whitespace, so it is not skipped and an input whose
first character is a carriage return fails with `UnexpectedCharacter`. -/
theorem claim_C7 :
    (∀ s, skip_space s = s.dropWhile (fun c => c == ' ' || c == '\n' || c == '\t')) ∧
    (∀ rest, skip_space ('\r' :: rest) = '\r' :: rest) ∧
    (∀ f rest, value (f + 1) ('\r' :: rest) = .error .UnexpectedCharacter) :=
  ⟨skip_space_eq_dropWhile, fun rest => rfl,
   fun f rest => value_unexpected_char f _ '\r' rest rfl (by decide) (by decide)
     (by decide) (by decide) (by decide) (by decide) (by decide)⟩

/-- C8: the top-level entry point just runs the value production once and
returns its node, discarding the leftover input, so whenever the value
production succeeds the remaining characters are ignored (never an error and
never part of the tree), as in the two concrete examples. -/
theorem claim_C8 :
    (∀ (s : String) (v : Node) (rest : List Char),
      value (2 * s.data.length + 1) s.data = .ok (v, rest) → parse s = .ok v) ∧
    parse ("123abc") = .ok (.IntLiteral 123) ∧
    parse ("true true") = .ok (.BoolLiteral true) := by
  refine ⟨?_, rfl, rfl⟩
  intro s v rest h
  unfold parse
  rw [h]
  rfl

theorem claim_C8_witness : parse ("1 2") = .ok (.IntLiteral 1) :=
  claim_C8.1 ("1 2") (.IntLiteral 1) (' ' :: '2' :: []) (by rfl)

/-- C9: the string production consumes the opening quote, takes characters
verbatim (backslash has no special meaning) up to the next quote, which is
consumed but excluded, so the produced text is exactly the characters
strictly between the quotes and never contains a quote character; the
concrete example keeps a backslash-n pair as two literal characters. -/
theorem claim_C9 :
    (∀ cs rest, '"' ∉ cs → string ('"' :: (cs ++ '"' :: rest)) = (cs, rest)) ∧
    (∀ s, '"' ∉ (string s).1) ∧
    parse ("\"a\\nb\"") = .ok (.StringLiteral ("a\\nb")) := by
  refine ⟨?_, ?_, rfl⟩
  · intro cs rest h
    simp only [string, List.drop_succ_cons, List.drop_zero]
    exact strLoop_append cs rest h
  · intro s
    exact strLoop_no_quote _

theorem claim_C9_witness :
    string ('"' :: (('x' :: 'y' :: []) ++ '"' :: 'z' :: [])) =
      ('x' :: 'y' :: [], 'z' :: []) :=
  claim_C9.1 ('x' :: 'y' :: []) ('z' :: []) (by decide)

/-- C10: parsing always terminates: with fuel `2 * input length + 1` the
embedded parser never exhausts its fuel (each production consumes input
before recursing, see `consume`), so every parse ends in a node or a genuine
error, and the depth of a returned tree is bounded by the input length (the
tree is an inductive value, hence cycle-free). -/
theorem claim_C10 : ∀ s : String, parse s ≠ .error .OutOfFuel ∧
    (∀ v, parse s = .ok v → depth v ≤ s.length) := by
  intro s
  constructor
  · intro h
    unfold parse at h
    cases hval : value (2 * s.data.length + 1) s.data with
    | ok p =>
      rw [hval] at h
      simp [Except.map] at h
    | error e =>
      rw [hval] at h
      simp only [Except.map] at h
      injection h with he
      subst he
      exact (noFuel (2 * s.data.length + 1)).1 s.data (by omega) hval
  · intro v hv
    unfold parse at hv
    cases hval : value (2 * s.data.length + 1) s.data with
    | ok p =>
      obtain ⟨v1, r⟩ := p
      rw [hval] at hv
      simp only [Except.map] at hv
      injection hv with hv1
      have hc := (consume (2 * s.data.length + 1)).1 s.data v1 r hval
      have hlen : s.length = s.data.length := rfl
      rw [← hv1]
      omega
    | error e =>
      rw [hval] at hv
      simp [Except.map] at hv

theorem claim_C10_witness :
    depth (Node.Array (Node.IntLiteral 1 :: [])) ≤ ("[1,]" : String).length :=
  (claim_C10 ("[1,]")).2 (.Array [.IntLiteral 1]) (by rfl)
